import Mathlib

/-!
Verification of the DataRecovery recovery-orchestration engine.

This file shallowly embeds the parts of the program that the checked
properties speak about:

* `organise_files.py` — the file-classification engine
  (`organize_files_by_type`, `_process_files_without_extension`,
  `_process_files_with_extension`, `_get_unique_path`, `organize_and_cleanup`);
* `image_helper.py` — the privileged ddrescue helper template
  (the `run` wrapper, the four-stage retry ladder, the partition loop);
* `mounted_check.py` — the mount-safety gate
  (`MountedPartitionChecker.check_and_handle_mounted_partitions`);
* `recover.py` — the scanning phase (`photorec_recover`, `_find_image_files`);
* `duplicates.py` — the deduplication phase (`remove_duplicates_with_rdfind`).

Python string operations are modelled over the character lists of Lean
strings; the filesystem is modelled as the list of existing paths; each
subprocess is modelled by the data the surrounding code observes from it
(its exit code and the cancellation observations made while it runs).
-/

namespace DataRecovery

/-! ### Python string primitives -/

/-- Python `s.startswith(t)`. -/
def pyStartsWith (s t : String) : Bool := t.data.isPrefixOf s.data

/-- Python `s.endswith(t)`. -/
def pyEndsWith (s t : String) : Bool := t.data.isSuffixOf s.data

/-- Python `s.lower()` (ASCII case folding, which is all the program needs). -/
def pyLower (s : String) : String := ⟨s.data.map Char.toLower⟩

/-- Python `c in s` for a single character. -/
def pyContains (s : String) (c : Char) : Bool := s.data.contains c

/-- Python `s[1:]`. -/
def pySlice1 (s : String) : String := ⟨s.data.drop 1⟩

/-- `os.path.basename` for the paths the helper handles (no trailing slash). -/
def pyBasename (s : String) : String :=
  ⟨(s.data.reverse.takeWhile (fun c => c ≠ '/')).reverse⟩

/-- `os.path.splitext` on the character list: split at the last dot, but a
basename consisting of leading dots only has no extension (CPython
`genericpath._splitext`; the program only applies it to plain file names,
which contain no separator). -/
def splitextCore (cs : List Char) : List Char × List Char :=
  match cs.reverse.dropWhile (fun c => c ≠ '.') with
  | [] => (cs, [])
  | _ :: baseR =>
    if baseR.reverse.all (fun c => c = '.') then (cs, [])
    else (baseR.reverse, '.' :: (cs.reverse.takeWhile (fun c => c ≠ '.')).reverse)

/-- `os.path.splitext`. -/
def splitext (p : String) : String × String :=
  (⟨(splitextCore p.data).1⟩, ⟨(splitextCore p.data).2⟩)

/-- `os.path.join(directory, filename)` as used by the program. -/
def pathJoin (d f : String) : String :=
  if pyStartsWith f "/" then f
  else if d = "" || pyEndsWith d "/" then d ++ f
  else d ++ "/" ++ f

/-! ### `organise_files._get_unique_path`

The filesystem is the list of paths that currently exist; `os.path.exists`
is membership in it.  The Python `while` loop probes candidate names in
order; it is bounded here by `fs.length + 1` probes, which covers every
run in which the loop can still be inside the existing set. -/

/-- `os.path.exists` against a filesystem snapshot. -/
def os_path_exists (fs : List String) (p : String) : Bool := fs.contains p

/-- The candidate-probing loop of `_get_unique_path`:
`while os.path.exists(dest_path): dest_path = join(dir, f"{base}_{counter}{ext}")`. -/
def uniqueGo (fs : List String) (dir base ext : String) :
    String → Nat → Nat → String
  | dest, _, 0 => dest
  | dest, counter, fuel + 1 =>
    if os_path_exists fs dest then
      uniqueGo fs dir base ext
        (pathJoin dir (base ++ "_" ++ Nat.repr counter ++ ext)) (counter + 1) fuel
    else dest

/-- `organise_files._get_unique_path(directory, filename)` evaluated against
the filesystem snapshot `fs`.  It only reads `fs` (via `os.path.exists`)
and returns a path; it performs no writes. -/
def _get_unique_path (fs : List String) (directory filename : String) : String :=
  let dest := pathJoin directory filename
  let be := splitext filename
  uniqueGo fs directory be.1 be.2 dest 1 (fs.length + 1)

/-- `os.path.exists` is membership in the snapshot. -/
theorem os_path_exists_iff (fs : List String) (p : String) :
    os_path_exists fs p = true ↔ p ∈ fs := List.elem_iff

/-- The probing loop never returns a fresh path while claiming it existed:
monotonicity under filesystem growth.  If the filesystem only gained paths
between two calls, the second call either returns the same path, or the
first call's result is among the now-existing paths. -/
theorem uniqueGo_mono (fs fs' : List String) (dir base ext : String)
    (hsub : ∀ p, p ∈ fs → p ∈ fs') :
    ∀ fuel fuel' dest counter, fuel ≤ fuel' →
      uniqueGo fs dir base ext dest counter fuel ∈ fs' ∨
      uniqueGo fs' dir base ext dest counter fuel' =
        uniqueGo fs dir base ext dest counter fuel := by
  intro fuel
  induction fuel with
  | zero =>
    intro fuel' dest counter _
    simp only [uniqueGo]
    by_cases hd : dest ∈ fs'
    · exact Or.inl hd
    · right
      have h' : os_path_exists fs' dest = false := by
        rw [Bool.eq_false_iff]
        intro hc
        exact hd ((os_path_exists_iff fs' dest).mp hc)
      cases fuel' with
      | zero => simp [uniqueGo]
      | succ n => simp [uniqueGo, h']
  | succ n ih =>
    intro fuel' dest counter hle
    by_cases h : dest ∈ fs
    · have hh : os_path_exists fs dest = true := (os_path_exists_iff fs dest).mpr h
      have hh' : os_path_exists fs' dest = true :=
        (os_path_exists_iff fs' dest).mpr (hsub _ h)
      cases fuel' with
      | zero => omega
      | succ m =>
        have hm : n ≤ m := by omega
        simpa [uniqueGo, hh, hh'] using
          ih m (pathJoin dir (base ++ "_" ++ Nat.repr counter ++ ext)) (counter + 1) hm
    · have hh : os_path_exists fs dest = false := by
        rw [Bool.eq_false_iff]
        intro hc
        exact h ((os_path_exists_iff fs dest).mp hc)
      simp only [uniqueGo, hh, if_neg Bool.false_ne_true]
      by_cases hd : dest ∈ fs'
      · exact Or.inl hd
      · right
        have h' : os_path_exists fs' dest = false := by
          rw [Bool.eq_false_iff]
          intro hc
          exact hd ((os_path_exists_iff fs' dest).mp hc)
        cases fuel' with
        | zero => simp [uniqueGo]
        | succ m => simp [uniqueGo, h']

/-- C10: `_get_unique_path` is a read-only function of the existing-paths
set.  In this embedding it receives the filesystem snapshot and returns
only a path, so a second call over an unchanged filesystem returns the
identical path; and if the filesystem has only grown (`created ++ fs`) and
the second call returns a different path, then the first call's result is
among the paths that now exist — the only way to be pushed to a later
`_N` suffix is that the previously returned path was created in between. -/
theorem get_unique_path_readonly (fs created : List String) (directory filename : String) :
    _get_unique_path fs directory filename = _get_unique_path fs directory filename ∧
    (_get_unique_path (created ++ fs) directory filename ≠
        _get_unique_path fs directory filename →
      _get_unique_path fs directory filename ∈ created ++ fs) := by
  refine ⟨rfl, ?_⟩
  intro hne
  have hsub : ∀ p, p ∈ fs → p ∈ created ++ fs := by
    intro p hp; exact List.mem_append_right _ hp
  have hlen : fs.length + 1 ≤ (created ++ fs).length + 1 := by
    simp [List.length_append]
  have := uniqueGo_mono fs (created ++ fs) directory
    (splitext filename).1 (splitext filename).2 hsub
    (fs.length + 1) ((created ++ fs).length + 1)
    (pathJoin directory filename) 1 hlen
  cases this with
  | inl h => exact h
  | inr h => exact absurd h hne

/-- Witness for C10 at a concrete input: with `x.jpg` and `x_1.jpg` existing
after the first call created `x_1.jpg`, the second call differs, and indeed
the first call's result is among the existing paths. -/
theorem get_unique_path_readonly_witness :
    _get_unique_path ["dest/x.jpg"] "dest" "x.jpg" ∈ ["dest/x_1.jpg"] ++ ["dest/x.jpg"] :=
  (get_unique_path_readonly ["dest/x.jpg"] ["dest/x_1.jpg"] "dest" "x.jpg").2 (by decide)

/-- C5 fails as stated: `_get_unique_path` does not itself create the
returned path, so calling it twice against the same pre-existing `x.jpg`
(with no intervening filesystem change) returns `x_1.jpg` both times —
the second call does not return `x_2.jpg`. -/
theorem get_unique_path_second_call_counterexample :
    _get_unique_path ["dest/x.jpg"] "dest" "x.jpg" = "dest/x_1.jpg" ∧
    _get_unique_path ["dest/x.jpg"] "dest" "x.jpg" ≠ "dest/x_2.jpg" := by
  decide

/-- C5 amended: with `x.jpg` pre-existing the first call yields `x_1.jpg`;
the second call yields `x_2.jpg` exactly when the first returned path was
created between the calls, and yields `x_1.jpg` again when the filesystem
is unchanged. -/
theorem get_unique_path_sequence_amended :
    _get_unique_path ["dest/x.jpg"] "dest" "x.jpg" = "dest/x_1.jpg" ∧
    _get_unique_path ["dest/x_1.jpg", "dest/x.jpg"] "dest" "x.jpg" = "dest/x_2.jpg" ∧
    _get_unique_path ["dest/x.jpg"] "dest" "x.jpg" = "dest/x_1.jpg" ∧
    "dest/x_1.jpg" ≠ "dest/x_2.jpg" := by
  decide

/-! ### `mounted_check.MountedPartitionChecker.check_and_handle_mounted_partitions`

A block-device record carries the fields the gate reads.  `mount_path`
models `block_device.get('mount_path')`, with the empty string standing
for a missing/empty (falsy) value.  The outcome distinguishes the three
exits of the method: returning `False` immediately on a critical mount
(no dialog shown, success callback not called), calling the success
callback when nothing in scope is mounted, and showing the unmount
dialog otherwise. -/

structure BlockDev where
  path : String
  mounted : Bool
  mount_path : String
deriving DecidableEq, Repr

inductive GateResult where
  | blockedCritical (path mount_path : String)
  | proceeded
  | prompting (mounted : List (String × String))
deriving DecidableEq, Repr

/-- The fixed list of critical mount targets from the source. -/
def critical_mounts : List String := ["/", "/home", "/boot", "/usr", "/var", "/tmp", "/opt"]

/-- The in-scope test: `block_device['path'] == device_path or
block_device['path'].startswith(device_path)`. -/
def inScope (d : BlockDev) (device_path : String) : Bool :=
  d.path == device_path || pyStartsWith d.path device_path

/-- The loop body of `check_and_handle_mounted_partitions`, accumulating
the non-critical mounted partitions in visit order. -/
def checkGo (device_path : String) :
    List BlockDev → List (String × String) → GateResult
  | [], acc => if acc.isEmpty then .proceeded else .prompting acc
  | d :: rest, acc =>
    if inScope d device_path && d.mounted && d.mount_path != "" then
      if critical_mounts.contains d.mount_path then
        .blockedCritical d.path d.mount_path
      else checkGo device_path rest (acc ++ [(d.path, d.mount_path)])
    else checkGo device_path rest acc

/-- `MountedPartitionChecker.check_and_handle_mounted_partitions`:
`.proceeded` means `success_callback()` was invoked, `.prompting l` means
the unmount dialog was shown with the list `l`, and `.blockedCritical`
means the method returned `False` before either could happen. -/
def check_and_handle_mounted_partitions (devs : List BlockDev) (device_path : String) :
    GateResult :=
  checkGo device_path devs []

/-- A mounted in-scope critical partition, as the loop tests it. -/
def criticalWitness (d : BlockDev) (device_path : String) : Prop :=
  inScope d device_path = true ∧ d.mounted = true ∧ d.mount_path ≠ "" ∧
    d.mount_path ∈ critical_mounts

instance (d : BlockDev) (dp : String) : Decidable (criticalWitness d dp) := by
  unfold criticalWitness; infer_instance

theorem checkGo_blocked (device_path : String) :
    ∀ devs acc, (∃ d ∈ devs, criticalWitness d device_path) →
      ∃ p m, checkGo device_path devs acc = .blockedCritical p m ∧
        m ∈ critical_mounts := by
  intro devs
  induction devs with
  | nil =>
    intro acc h
    obtain ⟨d, hd, _⟩ := h
    exact absurd hd (List.not_mem_nil d)
  | cons d rest ih =>
    intro acc h
    by_cases hcond : (inScope d device_path && d.mounted && d.mount_path != "") = true
    · by_cases hcrit : d.mount_path ∈ critical_mounts
      · exact ⟨d.path, d.mount_path, by simp [checkGo, hcond, hcrit], hcrit⟩
      · have : ∃ x ∈ rest, criticalWitness x device_path := by
          obtain ⟨x, hx, hw⟩ := h
          rcases List.mem_cons.mp hx with hxd | hxr
          · exact absurd (hxd ▸ hw).2.2.2 hcrit
          · exact ⟨x, hxr, hw⟩
        simpa [checkGo, hcond, hcrit] using ih (acc ++ [(d.path, d.mount_path)]) this
    · have : ∃ x ∈ rest, criticalWitness x device_path := by
        obtain ⟨x, hx, hw⟩ := h
        rcases List.mem_cons.mp hx with hxd | hxr
        · subst hxd
          obtain ⟨h1, h2, h3, _⟩ := hw
          exact absurd (by simp [h1, h2, h3]) hcond
        · exact ⟨x, hxr, hw⟩
      simpa [checkGo, hcond] using ih acc this

/-- C7: if any in-scope block path is mounted at one of the fixed critical
paths, the gate returns `blockedCritical` no matter what other mounts are
present: the unmount dialog is never shown and the success callback (the
recovery job) is never invoked. -/
theorem mount_gate_blocks_critical (devs : List BlockDev) (device_path : String)
    (h : ∃ d ∈ devs, criticalWitness d device_path) :
    (∃ p m, check_and_handle_mounted_partitions devs device_path = .blockedCritical p m) ∧
    check_and_handle_mounted_partitions devs device_path ≠ .proceeded ∧
    ∀ l, check_and_handle_mounted_partitions devs device_path ≠ .prompting l := by
  obtain ⟨p, m, heq, _⟩ := checkGo_blocked device_path devs [] h
  unfold check_and_handle_mounted_partitions
  rw [heq]
  exact ⟨⟨p, m, rfl⟩, by simp, by simp⟩

/-- Witness for C7: a device with `/dev/sda1` mounted at `/home` (critical)
alongside a non-critical mount is refused outright. -/
theorem mount_gate_blocks_critical_witness :
    (∃ p m, check_and_handle_mounted_partitions
        [⟨"/dev/sda2", true, "/mnt/data"⟩, ⟨"/dev/sda1", true, "/home"⟩]
        "/dev/sda" = .blockedCritical p m) ∧
    check_and_handle_mounted_partitions
        [⟨"/dev/sda2", true, "/mnt/data"⟩, ⟨"/dev/sda1", true, "/home"⟩]
        "/dev/sda" ≠ .proceeded ∧
    ∀ l, check_and_handle_mounted_partitions
        [⟨"/dev/sda2", true, "/mnt/data"⟩, ⟨"/dev/sda1", true, "/home"⟩]
        "/dev/sda" ≠ .prompting l :=
  mount_gate_blocks_critical _ _ (by decide)

/-! ### `recover.photorec_recover` — the scanning phase

`listing` is `os.listdir(working_dir)`; a scan subprocess is modelled by
the boolean outcome the caller observes (`scanOk`).  The phase records,
for each discovered image, the scan it launched and the outcome it
logged; the source discards `_scan_image_file`'s return value, so the
outcome influences nothing. -/

/-- `recover._find_image_files`: the `.img` entries, sorted
(`image_files.sort()`). -/
def _find_image_files (listing : List String) : List String :=
  (listing.filter (fun f => pyEndsWith f ".img")).mergeSort (fun a b => decide (a ≤ b))

/-- `recover.photorec_recover`: returns the phase's boolean result and the
list of scans launched, paired with each scan's observed outcome. -/
def photorec_recover (listing : List String) (scanOk : String → Bool) :
    Bool × List (String × Bool) :=
  let image_files := _find_image_files listing
  if image_files.isEmpty then (false, [])
  else (true, image_files.map (fun f => (f, scanOk f)))

/-- C8: the scanning phase fails exactly when no `.img` files are present;
whatever the individual scan outcomes (`scanOk` arbitrary — even constantly
false), every discovered image is scanned exactly once, in sorted order. -/
theorem photorec_recover_spec (listing : List String) (scanOk : String → Bool) :
    ((photorec_recover listing scanOk).1 = false ↔
      listing.filter (fun f => pyEndsWith f ".img") = []) ∧
    (photorec_recover listing scanOk).2.map Prod.fst = _find_image_files listing ∧
    (_find_image_files listing).Perm (listing.filter (fun f => pyEndsWith f ".img")) ∧
    List.Pairwise (fun a b : String => a ≤ b) (_find_image_files listing) := by
  have hperm := List.mergeSort_perm (listing.filter (fun f => pyEndsWith f ".img"))
    (fun a b => decide (a ≤ b))
  refine ⟨?_, ?_, hperm, ?_⟩
  · unfold photorec_recover
    by_cases h : (_find_image_files listing).isEmpty
    · simp only [h, if_true]
      have hnil : _find_image_files listing = [] := List.isEmpty_iff.mp h
      have : listing.filter (fun f => pyEndsWith f ".img") = [] :=
        List.Perm.eq_nil (List.Perm.symm (hnil ▸ hperm))
      simp [this]
    · simp only [h, if_false]
      constructor
      · intro hc; exact absurd hc (by simp)
      · intro hfil
        have : _find_image_files listing = [] := by
          unfold _find_image_files
          rw [hfil, List.mergeSort_nil]
        simp [this] at h
  · unfold photorec_recover
    by_cases h : (_find_image_files listing).isEmpty
    · simp only [h, if_true]
      have hnil : _find_image_files listing = [] := List.isEmpty_iff.mp h
      simp [hnil]
    · simp only [h, if_false]
      generalize _find_image_files listing = l
      induction l with
      | nil => rfl
      | cons a t ih => simpa using ih
  · have htrans : ∀ a b c : String, decide (a ≤ b) = true → decide (b ≤ c) = true →
        decide (a ≤ c) = true := by
      intro a b c hab hbc
      simp only [decide_eq_true_eq] at hab hbc ⊢
      exact le_trans hab hbc
    have htotal : ∀ a b : String, (decide (a ≤ b) || decide (b ≤ a)) = true := by
      intro a b
      rcases le_total a b with h | h <;> simp [h]
    have := @List.sorted_mergeSort String (fun a b => decide (a ≤ b)) htrans htotal
      (listing.filter (fun f => pyEndsWith f ".img"))
    exact this.imp (fun h => by simpa using h)

/-! ### `duplicates.remove_duplicates_with_rdfind` — the deduplication phase

The phase's interaction with its environment is modelled by the event it
observes: the lazy `check_tools_exist(['rdfind'])` re-check failing, the
rdfind subprocess completing with an exit code, the configurable timeout
expiring, the controller's cancellation flag, or an unexpected Python
exception (which the surrounding `try`/`except` catches). -/

inductive DedupEvent where
  | toolMissing
  | completes (code : Nat)
  | timesOut
  | cancelled
  | raises (msg : String)
deriving DecidableEq, Repr

inductive DedupStatus where
  | completedOk
  | failedExit (code : Nat)
  | timedOut
  | cancelled
  | skippedMissingTool
  | exceptionCaught
deriving DecidableEq, Repr

/-- The body of `remove_duplicates_with_rdfind` inside the `try`: every
path `return`s (modelled as `.ok`) except an unexpected exception. -/
def dedupBody : DedupEvent → Except String DedupStatus
  | .toolMissing => .ok .skippedMissingTool
  | .cancelled => .ok .cancelled
  | .timesOut => .ok .timedOut
  | .completes 0 => .ok .completedOk
  | .completes (c + 1) => .ok (.failedExit (c + 1))
  | .raises m => .error m

/-- `duplicates.remove_duplicates_with_rdfind`: the `except` clauses catch
everything, so the function always returns normally. -/
def remove_duplicates_with_rdfind (ev : DedupEvent) : DedupStatus :=
  match dedupBody ev with
  | .ok s => s
  | .error _ => .exceptionCaught

/-- `int(os.environ.get('DATARECOVERY_RDFIND_TIMEOUT', '1800'))`. -/
def rdfindTimeout (envValue : Option Nat) : Nat := envValue.getD 1800

/-- `organise_files.organize_and_cleanup` as far as the deduplication phase
is concerned: it optionally runs the dedup pass and then unconditionally
proceeds to log handling and the classification engine (whose success
value is the function's result).  `filesAfter` is the recovered tree as it
stands after the dedup pass's filesystem effect. -/
def organize_and_cleanup (ev : DedupEvent) (remove_duplicates : Bool)
    (organiseResult : Bool) : Option DedupStatus × Bool :=
  let st := if remove_duplicates then some (remove_duplicates_with_rdfind ev) else none
  (st, organiseResult)

/-- C9: whatever the dedup phase observes — missing tool (re-checked lazily
and skipped), nonzero exit, timeout (default 1800 s), cancellation, or an
exception — `remove_duplicates_with_rdfind` returns without raising, and
`organize_and_cleanup` still reaches the organise phase and returns its
result: the dedup outcome never changes the job's success value. -/
theorem dedup_never_fatal (ev : DedupEvent) (rd : Bool) (organiseResult : Bool) :
    (organize_and_cleanup ev rd organiseResult).2 = organiseResult ∧
    (∀ m, dedupBody ev = .error m →
      remove_duplicates_with_rdfind ev = .exceptionCaught) ∧
    remove_duplicates_with_rdfind .toolMissing = .skippedMissingTool ∧
    (∀ c, remove_duplicates_with_rdfind (.completes (c + 1)) = .failedExit (c + 1)) ∧
    remove_duplicates_with_rdfind .timesOut = .timedOut ∧
    remove_duplicates_with_rdfind .cancelled = .cancelled ∧
    rdfindTimeout none = 1800 := by
  refine ⟨rfl, ?_, rfl, fun c => rfl, rfl, rfl, rfl⟩
  intro m hm
  unfold remove_duplicates_with_rdfind
  rw [hm]

/-- Witness for C9: an unexpected exception inside the dedup pass is caught
and the organise phase still runs with its own result. -/
theorem dedup_never_fatal_witness :
    (organize_and_cleanup (.raises "boom") true true).2 = true ∧
    remove_duplicates_with_rdfind (.raises "boom") = .exceptionCaught :=
  ⟨(dedup_never_fatal (.raises "boom") true true).1,
    (dedup_never_fatal (.raises "boom") true true).2.1 "boom" rfl⟩

/-! ### `image_helper` — the privileged ddrescue helper template

What the helper observes of each `run(cmd)` call is modelled by a
`StageBehavior`: whether `check_cancel()` fired at the surrounding loop
head, whether it fired at `run`'s entry, whether a poll during the
subprocess observed cancellation, and the subprocess exit code.  `run`
calls `sys.exit(1)` on either cancellation and `sys.exit(returncode)` on a
nonzero exit code; only a zero exit code returns to the loop. -/

structure StageBehavior where
  cancelBeforeLoop : Bool
  cancelBeforeRun : Bool
  cancelDuringRun : Bool
  exitCode : Nat
deriving DecidableEq, Repr

/-- A stage run with no cancellation observed and exit code 0 — the only
case in which `run` returns and the loop continues. -/
def stageClean (b : StageBehavior) : Prop :=
  b.cancelBeforeLoop = false ∧ b.cancelBeforeRun = false ∧
    b.cancelDuringRun = false ∧ b.exitCode = 0

instance (b : StageBehavior) : Decidable (stageClean b) := by
  unfold stageClean; infer_instance

/-- One `for cmd in ...` loop of the helper (`main`'s stages loop and its
partition loop have the same shape): loop-head `check_cancel()` then
`run(cmd)`.  Returns the indices of the stages whose subprocess was
started, and `some code` if the helper called `sys.exit(code)`. -/
def runStages : List (List String) → (Nat → StageBehavior) → Nat →
    List Nat × Option Nat
  | [], _, _ => ([], none)
  | _cmd :: rest, env, i =>
    if (env i).cancelBeforeLoop then ([], some 1)
    else if (env i).cancelBeforeRun then ([], some 1)
    else if (env i).cancelDuringRun then ([i], some 1)
    else if (env i).exitCode ≠ 0 then ([i], some (env i).exitCode)
    else
      let r := runStages rest env (i + 1)
      (i :: r.1, r.2)

/-- The fixed four-stage retry ladder from the helper template. -/
def ddrescue_stages (dev img mapf : String) : List (List String) :=
  [["ddrescue", "--force", "--no-scrape", "--verbose", dev, img, mapf],
   ["ddrescue", "--force", "--idirect", "--retry-passes=3", "--no-scrape", "--verbose",
     dev, img, mapf],
   ["ddrescue", "--force", "--idirect", "--retry-passes=3", "--reverse", "--verbose",
     dev, img, mapf],
   ["ddrescue", "--force", "--idirect", "--retry-passes=3", "--verbose", dev, img, mapf]]

/-- The single-pass partition imaging commands of the helper's second loop. -/
def partition_cmds (dest : String) (parts : List String) : List (List String) :=
  parts.map (fun p =>
    ["ddrescue", "--force", "--verbose", p,
      pathJoin dest (pyBasename p ++ ".img"), pathJoin dest (pyBasename p ++ ".map")])

/-- The helper template's `main`: the retry ladder over the whole device,
then the partition loop; the process exit code is 0 only when both loops
complete.  Returns (device stages started, partition imagings started,
helper exit code). -/
def helperCombine (s pr : List Nat × Option Nat) : List Nat × List Nat × Nat :=
  match s.2 with
  | some c => (s.1, [], c)
  | none => (s.1, pr.1, pr.2.getD 0)

def helperMain (dev dest : String) (parts : List String)
    (env penv : Nat → StageBehavior) : List Nat × List Nat × Nat :=
  let img := pathJoin dest (pyBasename dev ++ ".img")
  let mapf := pathJoin dest (pyBasename dev ++ ".map")
  helperCombine (runStages (ddrescue_stages dev img mapf) env 0)
    (runStages (partition_cmds dest parts) penv 0)

theorem helperCombine_fst (s pr : List Nat × Option Nat) :
    (helperCombine s pr).1 = s.1 := by
  rcases s with ⟨s1, s2⟩
  cases s2 <;> rfl

theorem helperCombine_exit_some (s pr : List Nat × Option Nat) (c : Nat)
    (h : s.2 = some c) : (helperCombine s pr).2.2 = c := by
  rcases s with ⟨s1, s2⟩
  simp only at h
  subst h
  rfl

theorem helperCombine_exit_none (s pr : List Nat × Option Nat)
    (h : s.2 = none) : (helperCombine s pr).2.2 = pr.2.getD 0 := by
  rcases s with ⟨s1, s2⟩
  simp only at h
  subst h
  rfl

/-- `DDRescueHelper.run_with_pkexec` maps the helper's exit code to a
boolean success. -/
def run_with_pkexec_success (exitCode : Nat) : Bool := exitCode == 0

/-- Case equations for one loop step. -/
theorem runStages_cancelLoop (env : Nat → StageBehavior) (i : Nat)
    (c : List String) (rest : List (List String))
    (h : (env i).cancelBeforeLoop = true) :
    runStages (c :: rest) env i = ([], some 1) := by
  simp [runStages, h]

theorem runStages_cancelRun (env : Nat → StageBehavior) (i : Nat)
    (c : List String) (rest : List (List String))
    (h1 : (env i).cancelBeforeLoop = false) (h2 : (env i).cancelBeforeRun = true) :
    runStages (c :: rest) env i = ([], some 1) := by
  simp [runStages, h1, h2]

theorem runStages_cancelDuring (env : Nat → StageBehavior) (i : Nat)
    (c : List String) (rest : List (List String))
    (h1 : (env i).cancelBeforeLoop = false) (h2 : (env i).cancelBeforeRun = false)
    (h3 : (env i).cancelDuringRun = true) :
    runStages (c :: rest) env i = ([i], some 1) := by
  simp [runStages, h1, h2, h3]

theorem runStages_fail (env : Nat → StageBehavior) (i : Nat)
    (c : List String) (rest : List (List String))
    (h1 : (env i).cancelBeforeLoop = false) (h2 : (env i).cancelBeforeRun = false)
    (h3 : (env i).cancelDuringRun = false) (h4 : (env i).exitCode ≠ 0) :
    runStages (c :: rest) env i = ([i], some (env i).exitCode) := by
  simp [runStages, h1, h2, h3, h4]

theorem runStages_clean (env : Nat → StageBehavior) (i : Nat)
    (c : List String) (rest : List (List String)) (hc : stageClean (env i)) :
    runStages (c :: rest) env i =
      (i :: (runStages rest env (i + 1)).1, (runStages rest env (i + 1)).2) := by
  obtain ⟨hh1, hh2, hh3, hh4⟩ := hc
  simp [runStages, hh1, hh2, hh3, hh4]

/-- A stage's subprocess is started iff every earlier stage in the loop ran
clean and no cancellation was observed before this stage's subprocess. -/
theorem runStages_mem (env : Nat → StageBehavior) :
    ∀ (cmds : List (List String)) (i j : Nat),
      j ∈ (runStages cmds env i).1 ↔
        (i ≤ j ∧ j < i + cmds.length ∧ (∀ k, i ≤ k → k < j → stageClean (env k)) ∧
          (env j).cancelBeforeLoop = false ∧ (env j).cancelBeforeRun = false) := by
  intro cmds
  induction cmds with
  | nil =>
    intro i j
    refine ⟨fun h => absurd h (List.not_mem_nil j), ?_⟩
    rintro ⟨h1, h2, -⟩
    rw [List.length_nil] at h2
    omega
  | cons c rest ih =>
    intro i j
    have hlen : (c :: rest).length = rest.length + 1 := rfl
    cases hb1 : (env i).cancelBeforeLoop with
    | true =>
      rw [runStages_cancelLoop env i c rest hb1]
      refine ⟨fun h => absurd h (List.not_mem_nil j), ?_⟩
      rintro ⟨hij, -, hclean, hcb, -⟩
      exfalso
      rcases Nat.eq_or_lt_of_le hij with rfl | hlt
      · rw [hcb] at hb1; exact Bool.false_ne_true hb1
      · rw [(hclean i le_rfl hlt).1] at hb1; exact Bool.false_ne_true hb1
    | false =>
      cases hb2 : (env i).cancelBeforeRun with
      | true =>
        rw [runStages_cancelRun env i c rest hb1 hb2]
        refine ⟨fun h => absurd h (List.not_mem_nil j), ?_⟩
        rintro ⟨hij, -, hclean, -, hcbr⟩
        exfalso
        rcases Nat.eq_or_lt_of_le hij with rfl | hlt
        · rw [hcbr] at hb2; exact Bool.false_ne_true hb2
        · rw [(hclean i le_rfl hlt).2.1] at hb2; exact Bool.false_ne_true hb2
      | false =>
        cases hb3 : (env i).cancelDuringRun with
        | true =>
          rw [runStages_cancelDuring env i c rest hb1 hb2 hb3]
          constructor
          · intro h
            have hj : j = i := List.mem_singleton.mp h
            subst hj
            exact ⟨le_rfl, by rw [hlen]; omega,
              fun k hk hk' => absurd hk' (by omega), hb1, hb2⟩
          · rintro ⟨hij, -, hclean, -, -⟩
            rcases Nat.eq_or_lt_of_le hij with rfl | hlt
            · exact List.mem_singleton.mpr rfl
            · exfalso
              rw [(hclean i le_rfl hlt).2.2.1] at hb3
              exact Bool.false_ne_true hb3
        | false =>
          by_cases hb4 : (env i).exitCode = 0
          · have hclean_i : stageClean (env i) := ⟨hb1, hb2, hb3, hb4⟩
            rw [runStages_clean env i c rest hclean_i]
            rw [List.mem_cons, ih (i + 1) j]
            constructor
            · rintro (rfl | ⟨hij, hjlt, hcl, hcb, hcbr⟩)
              · exact ⟨le_rfl, by rw [hlen]; omega,
                  fun k hk hk' => absurd hk' (by omega), hb1, hb2⟩
              · refine ⟨by omega, by rw [hlen]; omega, ?_, hcb, hcbr⟩
                intro k hk hk'
                rcases Nat.eq_or_lt_of_le hk with rfl | hklt
                · exact hclean_i
                · exact hcl k (by omega) hk'
            · rintro ⟨hij, hjlt, hcl, hcb, hcbr⟩
              rcases Nat.eq_or_lt_of_le hij with rfl | hlt
              · exact Or.inl rfl
              · rw [hlen] at hjlt
                exact Or.inr ⟨by omega, by omega,
                  fun k hk hk' => hcl k (by omega) hk', hcb, hcbr⟩
          · rw [runStages_fail env i c rest hb1 hb2 hb3 hb4]
            constructor
            · intro h
              have hj : j = i := List.mem_singleton.mp h
              subst hj
              exact ⟨le_rfl, by rw [hlen]; omega,
                fun k hk hk' => absurd hk' (by omega), hb1, hb2⟩
            · rintro ⟨hij, -, hclean, -, -⟩
              rcases Nat.eq_or_lt_of_le hij with rfl | hlt
              · exact List.mem_singleton.mpr rfl
              · exact absurd (hclean i le_rfl hlt).2.2.2 hb4

/-- The loop exits without `sys.exit` iff every stage runs clean. -/
theorem runStages_none (env : Nat → StageBehavior) :
    ∀ (cmds : List (List String)) (i : Nat),
      (runStages cmds env i).2 = none ↔
        ∀ k, i ≤ k → k < i + cmds.length → stageClean (env k) := by
  intro cmds
  induction cmds with
  | nil =>
    intro i
    exact ⟨fun _ k hk hk' => absurd hk' (by rw [List.length_nil]; omega), fun _ => rfl⟩
  | cons c rest ih =>
    intro i
    have hlen : (c :: rest).length = rest.length + 1 := rfl
    cases hb1 : (env i).cancelBeforeLoop with
    | true =>
      rw [runStages_cancelLoop env i c rest hb1]
      refine ⟨fun h => absurd h (by simp), fun h => ?_⟩
      exfalso
      rw [(h i le_rfl (by rw [hlen]; omega)).1] at hb1
      exact Bool.false_ne_true hb1
    | false =>
      cases hb2 : (env i).cancelBeforeRun with
      | true =>
        rw [runStages_cancelRun env i c rest hb1 hb2]
        refine ⟨fun h => absurd h (by simp), fun h => ?_⟩
        exfalso
        rw [(h i le_rfl (by rw [hlen]; omega)).2.1] at hb2
        exact Bool.false_ne_true hb2
      | false =>
        cases hb3 : (env i).cancelDuringRun with
        | true =>
          rw [runStages_cancelDuring env i c rest hb1 hb2 hb3]
          refine ⟨fun h => absurd h (by simp), fun h => ?_⟩
          exfalso
          rw [(h i le_rfl (by rw [hlen]; omega)).2.2.1] at hb3
          exact Bool.false_ne_true hb3
        | false =>
          by_cases hb4 : (env i).exitCode = 0
          · have hclean_i : stageClean (env i) := ⟨hb1, hb2, hb3, hb4⟩
            rw [runStages_clean env i c rest hclean_i]
            rw [ih (i + 1)]
            constructor
            · intro h k hk hk'
              rcases Nat.eq_or_lt_of_le hk with rfl | hklt
              · exact hclean_i
              · rw [hlen] at hk'
                exact h k (by omega) (by omega)
            · intro h k hk hk'
              exact h k (by omega) (by rw [hlen]; omega)
          · rw [runStages_fail env i c rest hb1 hb2 hb3 hb4]
            refine ⟨fun h => absurd h (by simp), fun h => ?_⟩
            exact absurd (h i le_rfl (by rw [hlen]; omega)).2.2.2 hb4

/-- Every `sys.exit` code produced by the loop is nonzero: cancellation
exits with 1 and a failed command exits with its nonzero code. -/
theorem runStages_some_ne_zero (env : Nat → StageBehavior) :
    ∀ (cmds : List (List String)) (i c : Nat),
      (runStages cmds env i).2 = some c → c ≠ 0 := by
  intro cmds
  induction cmds with
  | nil => intro i c h; exact absurd h (by simp [runStages])
  | cons cmd rest ih =>
    intro i c h
    cases hb1 : (env i).cancelBeforeLoop with
    | true =>
      rw [runStages_cancelLoop env i cmd rest hb1] at h
      have : (1 : Nat) = c := Option.some.inj h
      omega
    | false =>
      cases hb2 : (env i).cancelBeforeRun with
      | true =>
        rw [runStages_cancelRun env i cmd rest hb1 hb2] at h
        have : (1 : Nat) = c := Option.some.inj h
        omega
      | false =>
        cases hb3 : (env i).cancelDuringRun with
        | true =>
          rw [runStages_cancelDuring env i cmd rest hb1 hb2 hb3] at h
          have : (1 : Nat) = c := Option.some.inj h
          omega
        | false =>
          by_cases hb4 : (env i).exitCode = 0
          · rw [runStages_clean env i cmd rest ⟨hb1, hb2, hb3, hb4⟩] at h
            exact ih (i + 1) c h
          · rw [runStages_fail env i cmd rest hb1 hb2 hb3 hb4] at h
            have : (env i).exitCode = c := Option.some.inj h
            omega

/-- The device-stage portion of the helper's result does not depend on the
partition loop: the ladder runs first. -/
theorem helperMain_device_part (dev dest : String) (parts : List String)
    (env penv : Nat → StageBehavior) :
    (helperMain dev dest parts env penv).1 =
      (runStages (ddrescue_stages dev (pathJoin dest (pyBasename dev ++ ".img"))
        (pathJoin dest (pyBasename dev ++ ".map"))) env 0).1 := by
  unfold helperMain
  exact helperCombine_fst _ _

theorem helperMain_exit_of_stageErr (dev dest : String) (parts : List String)
    (env penv : Nat → StageBehavior) (c : Nat)
    (h : (runStages (ddrescue_stages dev (pathJoin dest (pyBasename dev ++ ".img"))
        (pathJoin dest (pyBasename dev ++ ".map"))) env 0).2 = some c) :
    (helperMain dev dest parts env penv).2.2 = c := by
  unfold helperMain
  exact helperCombine_exit_some _ _ c h

theorem helperMain_exit_of_stagesOk (dev dest : String) (parts : List String)
    (env penv : Nat → StageBehavior)
    (h : (runStages (ddrescue_stages dev (pathJoin dest (pyBasename dev ++ ".img"))
        (pathJoin dest (pyBasename dev ++ ".map"))) env 0).2 = none) :
    (helperMain dev dest parts env penv).2.2 =
      (runStages (partition_cmds dest parts) penv 0).2.getD 0 := by
  unfold helperMain
  exact helperCombine_exit_none _ _ h

/-- C1 amended: the helper attempts stage 4 (index 3) exactly when stages
1–3 all exited 0 with no cancellation observed, and no cancellation is
observed before stage 4 starts — a nonzero exit code from an earlier
stage aborts the ladder (the helper's `run` calls `sys.exit(returncode)`),
it does not merely log and continue. -/
theorem ladder_stage4_iff (dev dest : String) (parts : List String)
    (env penv : Nat → StageBehavior) :
    3 ∈ (helperMain dev dest parts env penv).1 ↔
      ((∀ k, k < 3 → stageClean (env k)) ∧
        (env 3).cancelBeforeLoop = false ∧ (env 3).cancelBeforeRun = false) := by
  rw [helperMain_device_part, runStages_mem]
  have h4 : (ddrescue_stages dev (pathJoin dest (pyBasename dev ++ ".img"))
      (pathJoin dest (pyBasename dev ++ ".map"))).length = 4 := rfl
  rw [h4]
  constructor
  · rintro ⟨-, -, hcl, hcb, hcbr⟩
    exact ⟨fun k hk => hcl k (by omega) hk, hcb, hcbr⟩
  · rintro ⟨hcl, hcb, hcbr⟩
    exact ⟨by omega, by omega, fun k _ hk' => hcl k hk', hcb, hcbr⟩

/-- The environment in which the first ladder stage's ddrescue exits 1 and
everything else would run clean, with no cancellation anywhere. -/
def stageFail1Env : Nat → StageBehavior :=
  fun i => if i = 0 then ⟨false, false, false, 1⟩ else ⟨false, false, false, 0⟩

/-- C1 fails as stated: with no cancellation observed anywhere, stage 1
exiting nonzero makes the helper start only stage 1 — stage 4 (index 3) is
never attempted and the helper exits with the failing stage's code. -/
theorem ladder_aborts_counterexample :
    ((stageFail1Env 0).cancelBeforeLoop = false ∧ (stageFail1Env 0).cancelBeforeRun = false ∧
      (stageFail1Env 0).cancelDuringRun = false ∧
      (stageFail1Env 1).cancelBeforeLoop = false ∧ (stageFail1Env 2).cancelBeforeLoop = false ∧
      (stageFail1Env 3).cancelBeforeLoop = false ∧ (stageFail1Env 3).cancelBeforeRun = false) ∧
    (helperMain "/dev/sdb" "/out" [] stageFail1Env stageFail1Env).1 = [0] ∧
    3 ∉ (helperMain "/dev/sdb" "/out" [] stageFail1Env stageFail1Env).1 ∧
    (helperMain "/dev/sdb" "/out" [] stageFail1Env stageFail1Env).2.2 = 1 := by
  decide

/-- C2 amended: the helper's exit code is 0 exactly when all four device
stages and every partition imaging run clean — a failing partition imaging
makes the whole helper invocation exit with that nonzero code (aborting
the remaining partitions), while the device-stage portion of the run is
unaffected by anything the partition loop does. -/
theorem helper_exit_characterisation (dev dest : String) (parts : List String)
    (env penv : Nat → StageBehavior) :
    ((helperMain dev dest parts env penv).2.2 = 0 ↔
      ((∀ k, k < 4 → stageClean (env k)) ∧
        (∀ k, k < parts.length → stageClean (penv k)))) ∧
    (∀ (parts' : List String) (penv' : Nat → StageBehavior),
      (helperMain dev dest parts env penv).1 = (helperMain dev dest parts' env penv').1) := by
  have h4 : (ddrescue_stages dev (pathJoin dest (pyBasename dev ++ ".img"))
      (pathJoin dest (pyBasename dev ++ ".map"))).length = 4 := rfl
  have hplen : (partition_cmds dest parts).length = parts.length := List.length_map _ _
  constructor
  · cases hs : (runStages (ddrescue_stages dev (pathJoin dest (pyBasename dev ++ ".img"))
        (pathJoin dest (pyBasename dev ++ ".map"))) env 0).2 with
    | some c =>
      rw [helperMain_exit_of_stageErr dev dest parts env penv c hs]
      have hne := runStages_some_ne_zero env _ 0 c hs
      constructor
      · intro h; exact absurd h hne
      · rintro ⟨hstages, -⟩
        have : (runStages (ddrescue_stages dev (pathJoin dest (pyBasename dev ++ ".img"))
            (pathJoin dest (pyBasename dev ++ ".map"))) env 0).2 = none := by
          rw [runStages_none, h4]
          intro k _ hk'
          exact hstages k (by omega)
        rw [this] at hs
        exact absurd hs (by simp)
    | none =>
      rw [helperMain_exit_of_stagesOk dev dest parts env penv hs]
      have hstages : ∀ k, k < 4 → stageClean (env k) := by
        have := (runStages_none env _ 0).mp hs
        rw [h4] at this
        intro k hk
        exact this k (by omega) (by omega)
      cases hp : (runStages (partition_cmds dest parts) penv 0).2 with
      | some c =>
        have hne := runStages_some_ne_zero penv _ 0 c hp
        simp only [Option.getD_some]
        constructor
        · intro h; exact absurd h hne
        · rintro ⟨-, hparts⟩
          have : (runStages (partition_cmds dest parts) penv 0).2 = none := by
            rw [runStages_none, hplen]
            intro k _ hk'
            exact hparts k (by omega)
          rw [this] at hp
          exact absurd hp (by simp)
      | none =>
        simp only [Option.getD_none]
        have hparts : ∀ k, k < parts.length → stageClean (penv k) := by
          have := (runStages_none penv _ 0).mp hp
          rw [hplen] at this
          intro k hk
          exact this k (by omega) (by omega)
        exact ⟨fun _ => ⟨hstages, hparts⟩, fun _ => by trivial⟩
  · intro parts' penv'
    rw [helperMain_device_part, helperMain_device_part]

/-- All device stages run clean. -/
def cleanEnv : Nat → StageBehavior := fun _ => ⟨false, false, false, 0⟩

/-- Every partition imaging exits 5. -/
def partFail5Env : Nat → StageBehavior := fun _ => ⟨false, false, false, 5⟩

/-- C2 fails as stated: with the whole-device ladder fully successful, a
single partition imaging exiting 5 makes the helper exit 5, so
`run_with_pkexec` reports overall failure. -/
theorem partition_failure_counterexample :
    (helperMain "/dev/sdb" "/out" ["/dev/sdb1"] cleanEnv partFail5Env).1 = [0, 1, 2, 3] ∧
    (helperMain "/dev/sdb" "/out" ["/dev/sdb1"] cleanEnv partFail5Env).2.2 = 5 ∧
    run_with_pkexec_success
      ((helperMain "/dev/sdb" "/out" ["/dev/sdb1"] cleanEnv partFail5Env).2.2) = false := by
  decide

/-! ### `organise_files.organize_files_by_type` — the classification engine

A recovered file is represented by its filename (the directory it sits in
does not influence classification); `files` lists the filenames of the
whole tree in walk order.  Each iteration of the source's `while True`
loop deletes the report files it walks over, picks the first nonempty
(lowercased) extension as `current_ext`, and processes either that
extension's batch or — only when no extension was found — the batch of
files with no `.` or only a leading dot.  The loop is bounded here by
`files.length + 1` iterations, which covers every run: each processed
batch removes at least one file. -/

/-- `file in ["report.xml"] or file.endswith("_report.xml")`. -/
def isReport (f : String) : Bool := f == "report.xml" || pyEndsWith f "_report.xml"

/-- `'.' in file and not file.startswith('.')`. -/
def hasDotNotHidden (f : String) : Bool := pyContains f '.' && !(pyStartsWith f ".")

/-- `os.path.splitext(file)[1][1:].lower()`. -/
def extLower (f : String) : String := pyLower (pySlice1 (splitext f).2)

/-- `filename.lower().startswith('b')` — the carving tool's corrupted-output
naming convention. -/
def startsWithB (f : String) : Bool := pyStartsWith (pyLower f) "b"

inductive Outcome where
  | deleted
  | bucket (ext : String)
  | noFileType
  | corrupted
deriving DecidableEq, Repr

inductive BatchKind where
  | ext (e : String)
  | noExt
deriving DecidableEq, Repr

/-- Routing inside `_process_files_without_extension`. -/
def routeNoExt (f : String) : Outcome :=
  if startsWithB f then .corrupted else .noFileType

/-- Routing inside `_process_files_with_extension`. -/
def routeExt (e f : String) : Outcome :=
  if startsWithB f then .corrupted else .bucket e

/-- `file.lower().endswith(f'.{extension}')`. -/
def matchesExt (e f : String) : Bool := pyEndsWith (pyLower f) ("." ++ e)

/-- The scan's contribution of one file to `current_ext`. -/
def extProbe (f : String) : Option String :=
  if hasDotNotHidden f && extLower f != "" then some (extLower f) else none

/-- `current_ext` after a scan: the first file with a nonempty extension. -/
def findExt (files : List String) : Option String := files.findSome? extProbe

/-- A non-report filename that contains a non-leading dot but has an empty
extension (a trailing-dot name such as `"x."`): neither branch of the scan
ever collects it. -/
def badName (f : String) : Bool := !isReport f && hasDotNotHidden f && extLower f == ""

/-- The report files deleted during a scan. -/
def repsOf (files : List String) : List String := files.filter (fun f => isReport f)

/-- The files surviving a scan's report deletion. -/
def restOf (files : List String) : List String := files.filter (fun f => !isReport f)

/-- One extension's batch (`_process_files_with_extension` walks every
tree and moves each file whose lowercased name ends in `.extension`). -/
def extBatch (e : String) (rest : List String) : List String :=
  rest.filter (fun f => matchesExt e f)

def extKept (e : String) (rest : List String) : List String :=
  rest.filter (fun f => !matchesExt e f)

/-- The no-extension batch collected by the scan. -/
def noExtBatch (rest : List String) : List String :=
  rest.filter (fun f => !hasDotNotHidden f)

def dotKept (rest : List String) : List String :=
  rest.filter (fun f => hasDotNotHidden f)

/-- The `while True` loop of `organize_files_by_type`: returns the report
files deleted, the processed batches in order (each with its routed
entries), and the files left in place when the loop breaks. -/
def organizeLoop : Nat → List String →
    List String × List (BatchKind × List (String × Outcome)) × List String
  | 0, files => ([], [], files)
  | fuel + 1, files =>
    match findExt (restOf files) with
    | some e =>
      let r := organizeLoop fuel (extKept e (restOf files))
      (repsOf files ++ r.1,
        (BatchKind.ext e, (extBatch e (restOf files)).map (fun f => (f, routeExt e f))) ::
          r.2.1,
        r.2.2)
    | none =>
      if (noExtBatch (restOf files)).isEmpty then (repsOf files, [], restOf files)
      else
        let r := organizeLoop fuel (dotKept (restOf files))
        (repsOf files ++ r.1,
          (BatchKind.noExt, (noExtBatch (restOf files)).map (fun f => (f, routeNoExt f))) ::
            r.2.1,
          r.2.2)

/-- `organize_files_by_type` run to completion. -/
def organize (files : List String) :
    List String × List (BatchKind × List (String × Outcome)) × List String :=
  organizeLoop (files.length + 1) files

/-- All per-file events of a run, in processing order: deleted reports and
the routed batch entries. -/
def loopTrace (r : List String × List (BatchKind × List (String × Outcome)) × List String) :
    List (String × Outcome) :=
  r.1.map (fun g => (g, Outcome.deleted)) ++ (r.2.1.map Prod.snd).flatten

def organizeTrace (files : List String) : List (String × Outcome) :=
  loopTrace (organize files)

/-! Key string facts about the scan conditions. -/

theorem dropWhile_head_false {α : Type} (p : α → Bool) :
    ∀ (l : List α) (x : α) (xs : List α), l.dropWhile p = x :: xs → p x = false := by
  intro l
  induction l with
  | nil => intro x xs h; exact absurd h (by simp)
  | cons a t ih =>
    intro x xs h
    by_cases hpa : p a = true
    · rw [List.dropWhile_cons_of_pos hpa] at h
      exact ih x xs h
    · rw [List.dropWhile_cons_of_neg hpa] at h
      obtain ⟨rfl, -⟩ := List.cons.inj h
      exact Bool.eq_false_iff.mpr hpa

/-- For a filename that contains a dot and does not start with one,
`splitext` splits at the last dot: the name is `B ++ '.' :: A` with `A`
dot-free, the base is `B`, and the extension is `'.' :: A`. -/
theorem splitext_spec (f : String) (hhead : pyStartsWith f "." = false)
    (hdot : pyContains f '.' = true) :
    ∃ B A : List Char, f.data = B ++ '.' :: A ∧ (∀ c ∈ A, c ≠ '.') ∧
      splitext f = (⟨B⟩, ⟨'.' :: A⟩) := by
  have hmem : '.' ∈ f.data := by
    simpa [pyContains, List.elem_iff] using hdot
  obtain ⟨c, cs0, hcs⟩ : ∃ c cs0, f.data = c :: cs0 := by
    cases hc : f.data with
    | nil => rw [hc] at hmem; exact absurd hmem (List.not_mem_nil _)
    | cons c cs0 => exact ⟨c, cs0, rfl⟩
  have hcne : c ≠ '.' := by
    intro hceq
    subst hceq
    have : pyStartsWith f "." = true := by
      simp [pyStartsWith, hcs, List.isPrefixOf]
    rw [this] at hhead
    exact Bool.noConfusion hhead
  have hmemr : '.' ∈ f.data.reverse := List.mem_reverse.mpr hmem
  have hdwne : f.data.reverse.dropWhile (fun c => c ≠ '.') ≠ [] := by
    intro hnil
    have := List.dropWhile_eq_nil_iff.mp hnil '.' hmemr
    simp at this
  obtain ⟨d, baseR, hdw⟩ : ∃ d baseR,
      f.data.reverse.dropWhile (fun c => c ≠ '.') = d :: baseR := by
    cases hdd : f.data.reverse.dropWhile (fun c => c ≠ '.') with
    | nil => exact absurd hdd hdwne
    | cons d baseR => exact ⟨d, baseR, rfl⟩
  have hd : d = '.' := by
    have := dropWhile_head_false (fun c => decide (c ≠ '.')) _ d baseR hdw
    simpa using this
  subst hd
  have hsplit : f.data.reverse.takeWhile (fun c => c ≠ '.') ++
      ('.' :: baseR) = f.data.reverse := by
    rw [← hdw]
    exact List.takeWhile_append_dropWhile _ _
  set A : List Char := (f.data.reverse.takeWhile (fun c => c ≠ '.')).reverse with hA
  have hdataeq : f.data = baseR.reverse ++ '.' :: A := by
    have := congrArg List.reverse hsplit
    rw [List.reverse_append, List.reverse_reverse] at this
    rw [← this, hA]
    simp
  have hAdot : ∀ ch ∈ A, ch ≠ '.' := by
    intro ch hch
    have : ch ∈ f.data.reverse.takeWhile (fun c => c ≠ '.') := by
      rw [hA] at hch
      exact List.mem_reverse.mp hch
    have := List.mem_takeWhile_imp this
    simpa using this
  have hBne : baseR.reverse ≠ [] := by
    intro hb
    rw [hb, List.nil_append] at hdataeq
    rw [hcs] at hdataeq
    exact hcne (List.cons.inj hdataeq).1
  obtain ⟨b, bs, hbrev⟩ : ∃ b bs, baseR.reverse = b :: bs := by
    cases hbb : baseR.reverse with
    | nil => exact absurd hbb hBne
    | cons b bs => exact ⟨b, bs, rfl⟩
  have hbc : b = c := by
    rw [hbrev] at hdataeq
    rw [hcs] at hdataeq
    exact ((List.cons.inj hdataeq).1).symm
  have hall : baseR.reverse.all (fun ch => ch = '.') = false := by
    rw [hbrev]
    simp only [List.all_cons, Bool.and_eq_false_iff]
    left
    simp [hbc, hcne]
  have hsc : splitextCore f.data = (baseR.reverse, '.' :: A) := by
    unfold splitextCore
    rw [hdw]
    simp [hall, hA]
  refine ⟨baseR.reverse, A, hdataeq, hAdot, ?_⟩
  unfold splitext
  rw [hsc]

/-- A file with a nonempty extension always matches its own extension's
batch test: `file.lower().endswith('.' + splitext(file)[1][1:].lower())`. -/
theorem matchesExt_extLower (f : String) (h1 : hasDotNotHidden f = true) :
    matchesExt (extLower f) f = true := by
  simp only [hasDotNotHidden, Bool.and_eq_true] at h1
  have hdot : pyContains f '.' = true := h1.1
  have hhead : pyStartsWith f "." = false := by simpa using h1.2
  obtain ⟨B, A, hdata, hAdot, hsp⟩ := splitext_spec f hhead hdot
  have hext : extLower f = ⟨A.map Char.toLower⟩ := by
    unfold extLower
    rw [hsp]
    rfl
  unfold matchesExt pyEndsWith
  rw [hext]
  have hlow : (pyLower f).data = B.map Char.toLower ++ '.' :: A.map Char.toLower := by
    unfold pyLower
    show (f.data.map Char.toLower) = _
    rw [hdata, List.map_append, List.map_cons]
    rfl
  have happ : (("." : String) ++ (⟨A.map Char.toLower⟩ : String)).data
      = '.' :: A.map Char.toLower := by
    rw [String.data_append]
    rfl
  rw [hlow, happ]
  rw [List.isSuffixOf_iff_suffix]
  exact List.suffix_append _ _

/-! Equations and progress facts for the loop. -/

theorem organizeLoop_ext_eq (fuel : Nat) (files : List String) (e : String)
    (h : findExt (restOf files) = some e) :
    organizeLoop (fuel + 1) files =
      (repsOf files ++ (organizeLoop fuel (extKept e (restOf files))).1,
        (BatchKind.ext e,
          (extBatch e (restOf files)).map (fun f => (f, routeExt e f))) ::
          (organizeLoop fuel (extKept e (restOf files))).2.1,
        (organizeLoop fuel (extKept e (restOf files))).2.2) := by
  simp only [organizeLoop]
  rw [h]

theorem organizeLoop_term_eq (fuel : Nat) (files : List String)
    (h : findExt (restOf files) = none)
    (h2 : (noExtBatch (restOf files)).isEmpty = true) :
    organizeLoop (fuel + 1) files = (repsOf files, [], restOf files) := by
  simp only [organizeLoop]
  rw [h]
  simp [h2]

theorem organizeLoop_noext_eq (fuel : Nat) (files : List String)
    (h : findExt (restOf files) = none)
    (h2 : (noExtBatch (restOf files)).isEmpty = false) :
    organizeLoop (fuel + 1) files =
      (repsOf files ++ (organizeLoop fuel (dotKept (restOf files))).1,
        (BatchKind.noExt,
          (noExtBatch (restOf files)).map (fun f => (f, routeNoExt f))) ::
          (organizeLoop fuel (dotKept (restOf files))).2.1,
        (organizeLoop fuel (dotKept (restOf files))).2.2) := by
  simp only [organizeLoop]
  rw [h]
  simp [h2]

/-- `current_ext = e` is witnessed by a file that its own batch collects. -/
theorem extBatch_has_witness (rest : List String) (e : String)
    (h : findExt rest = some e) : ∃ f ∈ rest, matchesExt e f = true := by
  obtain ⟨f, hf, hp⟩ := List.exists_of_findSome?_eq_some h
  unfold extProbe at hp
  by_cases h1 : (hasDotNotHidden f && extLower f != "") = true
  · rw [if_pos h1] at hp
    have he : extLower f = e := Option.some.inj hp
    have hd : hasDotNotHidden f = true := by
      rw [Bool.and_eq_true] at h1
      exact h1.1
    exact ⟨f, hf, he ▸ matchesExt_extLower f hd⟩
  · rw [if_neg h1] at hp
    exact absurd hp (by simp)

theorem extKept_length_lt (rest : List String) (e : String)
    (h : findExt rest = some e) : (extKept e rest).length < rest.length := by
  obtain ⟨f, hf, hm⟩ := extBatch_has_witness rest e h
  unfold extKept
  exact List.length_filter_lt_length_iff_exists.mpr ⟨f, hf, by simp [hm]⟩

theorem dotKept_length_lt (rest : List String)
    (h2 : (noExtBatch rest).isEmpty = false) :
    (dotKept rest).length < rest.length := by
  have hwit : ∃ f ∈ rest, hasDotNotHidden f = false := by
    cases hne : noExtBatch rest with
    | nil => rw [hne] at h2; simp at h2
    | cons f t =>
      have hf : f ∈ noExtBatch rest := by rw [hne]; exact List.mem_cons_self f t
      have := List.mem_filter.mp hf
      exact ⟨f, this.1, by simpa using this.2⟩
  obtain ⟨f, hf, hfd⟩ := hwit
  unfold dotKept
  exact List.length_filter_lt_length_iff_exists.mpr ⟨f, hf, by simp [hfd]⟩

theorem restOf_length_le (files : List String) :
    (restOf files).length ≤ files.length := List.length_filter_le _ _

/-! Trace bookkeeping helpers. -/

theorem map_fst_pairs (l : List String) (route : String → Outcome) :
    (l.map (fun g => (g, route g))).map Prod.fst = l := by
  rw [List.map_map]
  exact List.map_id' l

theorem traceNames_decomp (a : List String)
    (bs : List (BatchKind × List (String × Outcome))) (lo : List String) :
    (loopTrace (a, bs, lo)).map Prod.fst =
      a ++ ((bs.map Prod.snd).flatten).map Prod.fst := by
  unfold loopTrace
  rw [List.map_append]
  congr 1
  exact map_fst_pairs a (fun _ => Outcome.deleted)

theorem flat_cons_names (k : BatchKind) (out : List (String × Outcome))
    (bs : List (BatchKind × List (String × Outcome))) :
    ((((k, out) :: bs).map Prod.snd).flatten).map Prod.fst =
      out.map Prod.fst ++ ((bs.map Prod.snd).flatten).map Prod.fst := by
  simp

theorem count_filter_split (p : String → Bool) (l : List String) (f : String) :
    (l.filter p).count f + (l.filter (fun x => !p x)).count f = l.count f := by
  induction l with
  | nil => rfl
  | cons a t ih =>
    by_cases hpa : p a = true
    · rw [List.filter_cons_of_pos hpa, List.filter_cons_of_neg (by simp [hpa])]
      by_cases haf : a = f
      · subst haf
        simp only [List.count_cons_self]
        omega
      · rw [List.count_cons_of_ne (Ne.symm haf),
          List.count_cons_of_ne (Ne.symm haf)]
        exact ih
    · rw [List.filter_cons_of_neg hpa, List.filter_cons_of_pos (by simp [hpa])]
      by_cases haf : a = f
      · subst haf
        simp only [List.count_cons_self]
        omega
      · rw [List.count_cons_of_ne (Ne.symm haf),
          List.count_cons_of_ne (Ne.symm haf)]
        exact ih

/-- Every filename occurrence in the input is accounted for: it appears in
the run's trace or among the left-in-place files, with multiplicity. -/
theorem organizeLoop_count :
    ∀ (fuel : Nat) (files : List String) (f : String), files.length < fuel →
      ((loopTrace (organizeLoop fuel files)).map Prod.fst).count f
        + ((organizeLoop fuel files).2.2).count f = files.count f := by
  intro fuel
  induction fuel with
  | zero => intro files f h; exact absurd h (Nat.not_lt_zero _)
  | succ fu ih =>
    intro files f h
    have hsplit1 : (repsOf files).count f + (restOf files).count f = files.count f :=
      count_filter_split (fun g => isReport g) files f
    rcases hfe : findExt (restOf files) with _ | e
    · cases hni : (noExtBatch (restOf files)).isEmpty with
      | true =>
        rw [organizeLoop_term_eq fu files hfe hni, traceNames_decomp]
        have hempty : noExtBatch (restOf files) = [] := List.isEmpty_iff.mp hni
        simp only [List.map_nil, List.flatten_nil, List.append_nil]
        simp only [List.count_append] at hsplit1 ⊢
        omega
      | false =>
        have hrec := ih (dotKept (restOf files)) f (by
          have h1 := dotKept_length_lt (restOf files) hni
          have h2 := restOf_length_le files
          omega)
        have hsplit2 : (dotKept (restOf files)).count f
            + (noExtBatch (restOf files)).count f = (restOf files).count f := by
          have := count_filter_split (fun g => hasDotNotHidden g) (restOf files) f
          simpa [dotKept, noExtBatch] using this
        rw [organizeLoop_noext_eq fu files hfe hni]
        rcases hrq : organizeLoop fu (dotKept (restOf files)) with ⟨r1, rbs, rlo⟩
        rw [hrq] at hrec
        rw [traceNames_decomp] at hrec
        simp only [List.count_append] at hrec
        dsimp only
        rw [traceNames_decomp, flat_cons_names, map_fst_pairs]
        simp only [List.count_append]
        omega
    · have hrec := ih (extKept e (restOf files)) f (by
        have h1 := extKept_length_lt (restOf files) e hfe
        have h2 := restOf_length_le files
        omega)
      have hsplit2 : (extBatch e (restOf files)).count f
          + (extKept e (restOf files)).count f = (restOf files).count f := by
        have := count_filter_split (fun g => matchesExt e g) (restOf files) f
        simpa [extBatch, extKept] using this
      rw [organizeLoop_ext_eq fu files e hfe]
      rcases hrq : organizeLoop fu (extKept e (restOf files)) with ⟨r1, rbs, rlo⟩
      rw [hrq] at hrec
      rw [traceNames_decomp] at hrec
      simp only [List.count_append] at hrec
      dsimp only
      rw [traceNames_decomp, flat_cons_names, map_fst_pairs]
      simp only [List.count_append]
      omega

theorem mem_routePairs (l : List String) (route : String → Outcome) (f : String)
    (o : Outcome) :
    (f, o) ∈ l.map (fun g => (g, route g)) ↔ f ∈ l ∧ o = route f := by
  constructor
  · intro hm
    obtain ⟨g, hg, heq⟩ := List.mem_map.mp hm
    rw [Prod.mk.injEq] at heq
    rcases heq with ⟨rfl, rfl⟩
    exact ⟨hg, rfl⟩
  · rintro ⟨hf, rfl⟩
    exact List.mem_map.mpr ⟨f, hf, rfl⟩

theorem mem_loopTrace_step (a r1 : List String) (k : BatchKind)
    (out : List (String × Outcome)) (rbs : List (BatchKind × List (String × Outcome)))
    (lo : List String) (f : String) (o : Outcome) :
    (f, o) ∈ loopTrace (a ++ r1, (k, out) :: rbs, lo) ↔
      ((f, o) ∈ a.map (fun g => (g, Outcome.deleted)) ∨ (f, o) ∈ out ∨
        (f, o) ∈ loopTrace (r1, rbs, lo)) := by
  unfold loopTrace
  simp only [List.map_append, List.map_cons, List.flatten_cons, List.mem_append]
  tauto

/-- Whatever the loop leaves in place is a trailing-dot name: non-report,
contains a non-leading dot, and has an empty extension. -/
theorem organizeLoop_leftover :
    ∀ (fuel : Nat) (files : List String), files.length < fuel →
      ∀ f ∈ (organizeLoop fuel files).2.2, badName f = true := by
  intro fuel
  induction fuel with
  | zero => intro files h; exact absurd h (Nat.not_lt_zero _)
  | succ fu ih =>
    intro files h f
    rcases hfe : findExt (restOf files) with _ | e
    · cases hni : (noExtBatch (restOf files)).isEmpty with
      | true =>
        rw [organizeLoop_term_eq fu files hfe hni]
        intro hf
        dsimp only at hf
        have hnr : isReport f = false := by
          have := (List.mem_filter.mp hf).2
          simpa using this
        have hdotf : hasDotNotHidden f = true := by
          have hempty : noExtBatch (restOf files) = [] := List.isEmpty_iff.mp hni
          have := List.filter_eq_nil_iff.mp hempty f hf
          simpa using this
        have hext : extLower f = "" := by
          have hnone := List.findSome?_eq_none_iff.mp hfe f hf
          unfold extProbe at hnone
          by_cases hcond : (hasDotNotHidden f && extLower f != "") = true
          · rw [if_pos hcond] at hnone
            exact absurd hnone (by simp)
          · simp [hdotf] at hcond
            exact hcond
        unfold badName
        rw [hnr, hdotf, hext]
        rfl
      | false =>
        rw [organizeLoop_noext_eq fu files hfe hni]
        dsimp only
        intro hf
        exact ih (dotKept (restOf files)) (by
          have h1 := dotKept_length_lt (restOf files) hni
          have h2 := restOf_length_le files
          omega) f hf
    · rw [organizeLoop_ext_eq fu files e hfe]
      dsimp only
      intro hf
      exact ih (extKept e (restOf files)) (by
        have h1 := extKept_length_lt (restOf files) e hfe
        have h2 := restOf_length_le files
        omega) f hf

/-- A traced file comes from the input tree. -/
theorem organizeLoop_trace_mem :
    ∀ (fuel : Nat) (files : List String) (f : String) (o : Outcome),
      (f, o) ∈ loopTrace (organizeLoop fuel files) → f ∈ files := by
  intro fuel
  induction fuel with
  | zero =>
    intro files f o hmem
    simp [organizeLoop, loopTrace] at hmem
  | succ fu ih =>
    intro files f o hmem
    rcases hfe : findExt (restOf files) with _ | e
    · cases hni : (noExtBatch (restOf files)).isEmpty with
      | true =>
        rw [organizeLoop_term_eq fu files hfe hni] at hmem
        unfold loopTrace at hmem
        dsimp only at hmem
        simp only [List.map_nil, List.flatten_nil, List.append_nil] at hmem
        obtain ⟨hf, -⟩ := (mem_routePairs _ _ f o).mp hmem
        exact (List.mem_filter.mp hf).1
      | false =>
        rw [organizeLoop_noext_eq fu files hfe hni] at hmem
        rcases hrq : organizeLoop fu (dotKept (restOf files)) with ⟨r1, rbs, rlo⟩
        rw [hrq] at hmem
        dsimp only at hmem
        rw [mem_loopTrace_step] at hmem
        rcases hmem with hrep | hout | hrec
        · obtain ⟨hf, -⟩ := (mem_routePairs _ _ f o).mp hrep
          exact (List.mem_filter.mp hf).1
        · obtain ⟨hf, -⟩ := (mem_routePairs _ _ f o).mp hout
          exact (List.mem_filter.mp (List.mem_filter.mp hf).1).1
        · rw [← hrq] at hrec
          have := ih (dotKept (restOf files)) f o hrec
          exact (List.mem_filter.mp (List.mem_filter.mp this).1).1
    · rw [organizeLoop_ext_eq fu files e hfe] at hmem
      rcases hrq : organizeLoop fu (extKept e (restOf files)) with ⟨r1, rbs, rlo⟩
      rw [hrq] at hmem
      dsimp only at hmem
      rw [mem_loopTrace_step] at hmem
      rcases hmem with hrep | hout | hrec
      · obtain ⟨hf, -⟩ := (mem_routePairs _ _ f o).mp hrep
        exact (List.mem_filter.mp hf).1
      · obtain ⟨hf, -⟩ := (mem_routePairs _ _ f o).mp hout
        exact (List.mem_filter.mp (List.mem_filter.mp hf).1).1
      · rw [← hrq] at hrec
        have := ih (extKept e (restOf files)) f o hrec
        exact (List.mem_filter.mp (List.mem_filter.mp this).1).1

theorem routeExt_ne_deleted (e f : String) : routeExt e f ≠ Outcome.deleted := by
  unfold routeExt
  by_cases hb : startsWithB f = true <;> simp [hb]

theorem routeNoExt_ne_deleted (f : String) : routeNoExt f ≠ Outcome.deleted := by
  unfold routeNoExt
  by_cases hb : startsWithB f = true <;> simp [hb]

/-- A traced outcome is `deleted` exactly for the report files; everything
else traced lands in one of the three buckets. -/
theorem organizeLoop_outcome :
    ∀ (fuel : Nat) (files : List String) (f : String) (o : Outcome),
      (f, o) ∈ loopTrace (organizeLoop fuel files) →
        (o = Outcome.deleted ↔ isReport f = true) := by
  intro fuel
  induction fuel with
  | zero =>
    intro files f o hmem
    simp [organizeLoop, loopTrace] at hmem
  | succ fu ih =>
    intro files f o hmem
    rcases hfe : findExt (restOf files) with _ | e
    · cases hni : (noExtBatch (restOf files)).isEmpty with
      | true =>
        rw [organizeLoop_term_eq fu files hfe hni] at hmem
        unfold loopTrace at hmem
        dsimp only at hmem
        simp only [List.map_nil, List.flatten_nil, List.append_nil] at hmem
        obtain ⟨hf, rfl⟩ := (mem_routePairs _ _ f o).mp hmem
        simp [(List.mem_filter.mp hf).2]
      | false =>
        rw [organizeLoop_noext_eq fu files hfe hni] at hmem
        rcases hrq : organizeLoop fu (dotKept (restOf files)) with ⟨r1, rbs, rlo⟩
        rw [hrq] at hmem
        dsimp only at hmem
        rw [mem_loopTrace_step] at hmem
        rcases hmem with hrep | hout | hrec
        · obtain ⟨hf, rfl⟩ := (mem_routePairs _ _ f o).mp hrep
          simp [(List.mem_filter.mp hf).2]
        · obtain ⟨hf, rfl⟩ := (mem_routePairs _ _ f o).mp hout
          have hnr : isReport f = false := by
            have := (List.mem_filter.mp (List.mem_filter.mp hf).1).2
            simpa using this
          simp [hnr, routeNoExt_ne_deleted f]
        · rw [← hrq] at hrec
          exact ih (dotKept (restOf files)) f o hrec
    · rw [organizeLoop_ext_eq fu files e hfe] at hmem
      rcases hrq : organizeLoop fu (extKept e (restOf files)) with ⟨r1, rbs, rlo⟩
      rw [hrq] at hmem
      dsimp only at hmem
      rw [mem_loopTrace_step] at hmem
      rcases hmem with hrep | hout | hrec
      · obtain ⟨hf, rfl⟩ := (mem_routePairs _ _ f o).mp hrep
        simp [(List.mem_filter.mp hf).2]
      · obtain ⟨hf, rfl⟩ := (mem_routePairs _ _ f o).mp hout
        have hnr : isReport f = false := by
          have := (List.mem_filter.mp (List.mem_filter.mp hf).1).2
          simpa using this
        simp [hnr, routeExt_ne_deleted e f]
      · rw [← hrq] at hrec
        exact ih (extKept e (restOf files)) f o hrec

/-- A filename is routed consistently: any two traced entries for the same
name carry the same outcome (all copies of a name are processed in the
same batch of the same iteration). -/
theorem organizeLoop_unique :
    ∀ (fuel : Nat) (files : List String) (f : String) (o o' : Outcome),
      (f, o) ∈ loopTrace (organizeLoop fuel files) →
      (f, o') ∈ loopTrace (organizeLoop fuel files) → o = o' := by
  intro fuel
  induction fuel with
  | zero =>
    intro files f o o' hmem hmem'
    simp [organizeLoop, loopTrace] at hmem
  | succ fu ih =>
    intro files f o o' hmem hmem'
    rcases hfe : findExt (restOf files) with _ | e
    · cases hni : (noExtBatch (restOf files)).isEmpty with
      | true =>
        rw [organizeLoop_term_eq fu files hfe hni] at hmem hmem'
        unfold loopTrace at hmem hmem'
        dsimp only at hmem hmem'
        simp only [List.map_nil, List.flatten_nil, List.append_nil] at hmem hmem'
        obtain ⟨-, rfl⟩ := (mem_routePairs _ _ f o).mp hmem
        obtain ⟨-, rfl⟩ := (mem_routePairs _ _ f o').mp hmem'
        rfl
      | false =>
        rw [organizeLoop_noext_eq fu files hfe hni] at hmem hmem'
        rcases hrq : organizeLoop fu (dotKept (restOf files)) with ⟨r1, rbs, rlo⟩
        rw [hrq] at hmem hmem'
        dsimp only at hmem hmem'
        rw [mem_loopTrace_step] at hmem hmem'
        have hrepP : ∀ x : Outcome, (f, x) ∈ (repsOf files).map
            (fun g => (g, Outcome.deleted)) → isReport f = true ∧ x = Outcome.deleted := by
          intro x hx
          obtain ⟨hf, rfl⟩ := (mem_routePairs _ _ f x).mp hx
          exact ⟨(List.mem_filter.mp hf).2, rfl⟩
        have houtP : ∀ x : Outcome, (f, x) ∈ (noExtBatch (restOf files)).map
            (fun g => (g, routeNoExt g)) →
            isReport f = false ∧ hasDotNotHidden f = false ∧ x = routeNoExt f := by
          intro x hx
          obtain ⟨hf, rfl⟩ := (mem_routePairs _ _ f x).mp hx
          have h1 := List.mem_filter.mp hf
          have h2 := List.mem_filter.mp h1.1
          exact ⟨by simpa using h2.2, by simpa using h1.2, rfl⟩
        have hrecP : ∀ x : Outcome, (f, x) ∈ loopTrace (r1, rbs, rlo) →
            isReport f = false ∧ hasDotNotHidden f = true := by
          intro x hx
          rw [← hrq] at hx
          have := organizeLoop_trace_mem fu (dotKept (restOf files)) f x hx
          have h1 := List.mem_filter.mp this
          have h2 := List.mem_filter.mp h1.1
          exact ⟨by simpa using h2.2, h1.2⟩
        rcases hmem with h1 | h1 | h1 <;> rcases hmem' with h2 | h2 | h2
        · rw [(hrepP o h1).2, (hrepP o' h2).2]
        · rw [(hrepP o h1).1] at *
          exact absurd (houtP o' h2).1 (by simp)
        · rw [(hrepP o h1).1] at *
          exact absurd (hrecP o' h2).1 (by simp)
        · rw [(hrepP o' h2).1] at *
          exact absurd (houtP o h1).1 (by simp)
        · rw [(houtP o h1).2.2, (houtP o' h2).2.2]
        · rw [(houtP o h1).2.1] at *
          exact absurd (hrecP o' h2).2 (by simp)
        · rw [(hrepP o' h2).1] at *
          exact absurd (hrecP o h1).1 (by simp)
        · rw [(houtP o' h2).2.1] at *
          exact absurd (hrecP o h1).2 (by simp)
        · rw [← hrq] at h1 h2
          exact ih (dotKept (restOf files)) f o o' h1 h2
    · rw [organizeLoop_ext_eq fu files e hfe] at hmem hmem'
      rcases hrq : organizeLoop fu (extKept e (restOf files)) with ⟨r1, rbs, rlo⟩
      rw [hrq] at hmem hmem'
      dsimp only at hmem hmem'
      rw [mem_loopTrace_step] at hmem hmem'
      have hrepP : ∀ x : Outcome, (f, x) ∈ (repsOf files).map
          (fun g => (g, Outcome.deleted)) → isReport f = true ∧ x = Outcome.deleted := by
        intro x hx
        obtain ⟨hf, rfl⟩ := (mem_routePairs _ _ f x).mp hx
        exact ⟨(List.mem_filter.mp hf).2, rfl⟩
      have houtP : ∀ x : Outcome, (f, x) ∈ (extBatch e (restOf files)).map
          (fun g => (g, routeExt e g)) →
          isReport f = false ∧ matchesExt e f = true ∧ x = routeExt e f := by
        intro x hx
        obtain ⟨hf, rfl⟩ := (mem_routePairs _ _ f x).mp hx
        have h1 := List.mem_filter.mp hf
        have h2 := List.mem_filter.mp h1.1
        exact ⟨by simpa using h2.2, h1.2, rfl⟩
      have hrecP : ∀ x : Outcome, (f, x) ∈ loopTrace (r1, rbs, rlo) →
          isReport f = false ∧ matchesExt e f = false := by
        intro x hx
        rw [← hrq] at hx
        have := organizeLoop_trace_mem fu (extKept e (restOf files)) f x hx
        have h1 := List.mem_filter.mp this
        have h2 := List.mem_filter.mp h1.1
        exact ⟨by simpa using h2.2, by simpa using h1.2⟩
      rcases hmem with h1 | h1 | h1 <;> rcases hmem' with h2 | h2 | h2
      · rw [(hrepP o h1).2, (hrepP o' h2).2]
      · rw [(hrepP o h1).1] at *
        exact absurd (houtP o' h2).1 (by simp)
      · rw [(hrepP o h1).1] at *
        exact absurd (hrecP o' h2).1 (by simp)
      · rw [(hrepP o' h2).1] at *
        exact absurd (houtP o h1).1 (by simp)
      · rw [(houtP o h1).2.2, (houtP o' h2).2.2]
      · rw [(houtP o h1).2.1] at *
        exact absurd (hrecP o' h2).2 (by simp)
      · rw [(hrepP o' h2).1] at *
        exact absurd (hrecP o h1).1 (by simp)
      · rw [(houtP o' h2).2.1] at *
        exact absurd (hrecP o h1).2 (by simp)
      · rw [← hrq] at h1 h2
        exact ih (extKept e (restOf files)) f o o' h1 h2

/-- The batch order of a run: some number of extension batches, optionally
followed by a single final no-extension batch.  The no-extension batch is
processed only in an iteration in which no extension file remains, so it
can never precede an extension batch. -/
theorem organizeLoop_kinds :
    ∀ (fuel : Nat) (files : List String), files.length < fuel →
      ∃ es : List String,
        (organizeLoop fuel files).2.1.map Prod.fst = es.map BatchKind.ext ∨
        (organizeLoop fuel files).2.1.map Prod.fst =
          es.map BatchKind.ext ++ [BatchKind.noExt] := by
  intro fuel
  induction fuel with
  | zero => intro files h; exact absurd h (Nat.not_lt_zero _)
  | succ fu ih =>
    intro files h
    rcases hfe : findExt (restOf files) with _ | e
    · cases hni : (noExtBatch (restOf files)).isEmpty with
      | true =>
        rw [organizeLoop_term_eq fu files hfe hni]
        exact ⟨[], Or.inl rfl⟩
      | false =>
        rw [organizeLoop_noext_eq fu files hfe hni]
        have hne : restOf files ≠ [] := by
          intro hnil
          have : noExtBatch (restOf files) = [] := by
            unfold noExtBatch
            rw [hnil]
            rfl
          rw [this] at hni
          simp at hni
        have hfl : 1 ≤ files.length := by
          have := restOf_length_le files
          have : (restOf files).length ≠ 0 := fun hz => hne (List.eq_nil_of_length_eq_zero hz)
          omega
        obtain ⟨fv, rfl⟩ : ∃ fv, fu = fv + 1 := by
          cases fu with
          | zero => omega
          | succ fv => exact ⟨fv, rfl⟩
        have hdk_rest : restOf (dotKept (restOf files)) = dotKept (restOf files) := by
          unfold restOf
          apply List.filter_eq_self.mpr
          intro g hg
          unfold dotKept at hg
          exact (List.mem_filter.mp (List.mem_filter.mp hg).1).2
        have hdk_find : findExt (restOf (dotKept (restOf files))) = none := by
          rw [hdk_rest]
          apply List.findSome?_eq_none_iff.mpr
          intro g hg
          unfold dotKept at hg
          exact List.findSome?_eq_none_iff.mp hfe g (List.mem_filter.mp hg).1
        have hdk_noext : (noExtBatch (restOf (dotKept (restOf files)))).isEmpty = true := by
          rw [hdk_rest]
          have hnil : noExtBatch (dotKept (restOf files)) = [] := by
            unfold noExtBatch
            apply List.filter_eq_nil_iff.mpr
            intro g hg hcon
            unfold dotKept at hg
            have := (List.mem_filter.mp hg).2
            simp [this] at hcon
          rw [hnil]
          rfl
        rw [organizeLoop_term_eq fv (dotKept (restOf files)) hdk_find hdk_noext]
        exact ⟨[], Or.inr rfl⟩
    · rw [organizeLoop_ext_eq fu files e hfe]
      obtain ⟨es, hes⟩ := ih (extKept e (restOf files)) (by
        have h1 := extKept_length_lt (restOf files) e hfe
        have h2 := restOf_length_le files
        omega)
      refine ⟨e :: es, ?_⟩
      dsimp only
      rw [List.map_cons]
      rcases hes with hes | hes
      · rw [hes]
        exact Or.inl (by rw [List.map_cons])
      · rw [hes]
        exact Or.inr (by rw [List.map_cons]; rfl)

/-- C4 amended: every file whose name is not a trailing-dot name (and not
a report, which is deleted) is visited exactly once — its occurrences in
the trace match its occurrences in the tree, it is not left in place, all
its entries carry one outcome, and that outcome is `deleted` exactly for
report files, a bucket (`bucket ext`, `noFileType` or `corrupted`)
otherwise. -/
theorem classification_invariant (files : List String) (f : String)
    (hbad : badName f = false) :
    ((organizeTrace files).map Prod.fst).count f = files.count f ∧
    f ∉ (organize files).2.2 ∧
    (∀ o o', (f, o) ∈ organizeTrace files → (f, o') ∈ organizeTrace files → o = o') ∧
    (∀ o, (f, o) ∈ organizeTrace files → (o = Outcome.deleted ↔ isReport f = true)) := by
  have hlen : files.length < files.length + 1 := Nat.lt_succ_self _
  have hno : f ∉ (organize files).2.2 := by
    intro hf
    have hb := organizeLoop_leftover (files.length + 1) files hlen f hf
    rw [hb] at hbad
    exact Bool.noConfusion hbad
  refine ⟨?_, hno, ?_, ?_⟩
  · have hcount := organizeLoop_count (files.length + 1) files f hlen
    have hzero : ((organize files).2.2).count f = 0 := List.count_eq_zero.mpr hno
    unfold organize at hzero
    unfold organizeTrace organize
    omega
  · intro o o' h1 h2
    exact organizeLoop_unique (files.length + 1) files f o o' h1 h2
  · intro o h1
    exact organizeLoop_outcome (files.length + 1) files f o h1

/-- Witness for C4 at a concrete input: `a.jpg` is traced exactly once and
is not left in place. -/
theorem classification_invariant_witness :
    ((organizeTrace ["a.jpg"]).map Prod.fst).count "a.jpg" = ["a.jpg"].count "a.jpg" ∧
    "a.jpg" ∉ (organize ["a.jpg"]).2.2 :=
  ⟨(classification_invariant ["a.jpg"] "a.jpg" (by decide)).1,
    (classification_invariant ["a.jpg"] "a.jpg" (by decide)).2.1⟩

/-- C4 fails as stated: a file named `x.` (dot present, empty extension) is
never collected by either scan branch — the run traces nothing and leaves
the file in place in the source tree. -/
theorem classification_leftinplace_counterexample :
    (organize ["x."]).2.2 = ["x."] ∧ organizeTrace ["x."] = [] := by
  decide

/-- C3 amended: a run's batches are some number of extension batches
optionally followed by one final no-extension batch — the no-extension
batch is processed only when no extension files remain, never before an
extension batch. -/
theorem noext_batch_last (files : List String) :
    ∃ es : List String,
      (organize files).2.1.map Prod.fst = es.map BatchKind.ext ∨
      (organize files).2.1.map Prod.fst = es.map BatchKind.ext ++ [BatchKind.noExt] :=
  organizeLoop_kinds (files.length + 1) files (Nat.lt_succ_self _)

/-- C3 fails as stated: with both kinds present, the extension batch runs
first; the no-extension file `noext` is relocated after `a.jpg`, not
before. -/
theorem noext_processed_after_ext_counterexample :
    (organize ["noext", "a.jpg"]).2.1.map Prod.fst = [BatchKind.ext "jpg", BatchKind.noExt] ∧
    organizeTrace ["noext", "a.jpg"] =
      [("a.jpg", Outcome.bucket "jpg"), ("noext", Outcome.noFileType)] ∧
    hasDotNotHidden "noext" = false ∧ hasDotNotHidden "a.jpg" = true := by
  decide

/-- Every batch entry is routed by its batch's routing function. -/
theorem organizeLoop_batches_route :
    ∀ (fuel : Nat) (files : List String) (k : BatchKind) (out : List (String × Outcome)),
      (k, out) ∈ (organizeLoop fuel files).2.1 →
        (∃ e, k = BatchKind.ext e ∧ ∀ p ∈ out, p.2 = routeExt e p.1) ∨
        (k = BatchKind.noExt ∧ ∀ p ∈ out, p.2 = routeNoExt p.1) := by
  intro fuel
  induction fuel with
  | zero =>
    intro files k out hmem
    simp [organizeLoop] at hmem
  | succ fu ih =>
    intro files k out hmem
    rcases hfe : findExt (restOf files) with _ | e
    · cases hni : (noExtBatch (restOf files)).isEmpty with
      | true =>
        rw [organizeLoop_term_eq fu files hfe hni] at hmem
        simp at hmem
      | false =>
        rw [organizeLoop_noext_eq fu files hfe hni] at hmem
        dsimp only at hmem
        rcases List.mem_cons.mp hmem with hhead | htail
        · rw [Prod.mk.injEq] at hhead
          rcases hhead with ⟨rfl, rfl⟩
          right
          refine ⟨rfl, ?_⟩
          intro p hp
          obtain ⟨g, -, rfl⟩ := List.mem_map.mp hp
          rfl
        · exact ih (dotKept (restOf files)) k out htail
    · rw [organizeLoop_ext_eq fu files e hfe] at hmem
      dsimp only at hmem
      rcases List.mem_cons.mp hmem with hhead | htail
      · rw [Prod.mk.injEq] at hhead
        rcases hhead with ⟨rfl, rfl⟩
        left
        refine ⟨e, rfl, ?_⟩
        intro p hp
        obtain ⟨g, -, rfl⟩ := List.mem_map.mp hp
        rfl
      · exact ih (extKept e (restOf files)) k out htail

/-- C6: in whichever batch it is processed, a file whose lowercased name
starts with `b` is routed to the `corrupted` bucket and never to an
extension bucket.  The engine receives no `keep_corrupted_files` option
(`organize_and_cleanup` has no such parameter), so the routing cannot
depend on it. -/
theorem corrupted_routing (files : List String) (k : BatchKind)
    (out : List (String × Outcome)) (f : String) (o : Outcome)
    (hk : (k, out) ∈ (organize files).2.1) (hf : (f, o) ∈ out)
    (hb : startsWithB f = true) :
    o = Outcome.corrupted ∧ ∀ e2, o ≠ Outcome.bucket e2 := by
  have hroute := organizeLoop_batches_route (files.length + 1) files k out hk
  rcases hroute with ⟨e, -, hall⟩ | ⟨-, hall⟩
  · have ho : o = routeExt e f := hall (f, o) hf
    rw [ho]
    unfold routeExt
    rw [if_pos hb]
    exact ⟨rfl, fun e2 => by simp⟩
  · have ho : o = routeNoExt f := hall (f, o) hf
    rw [ho]
    unfold routeNoExt
    rw [if_pos hb]
    exact ⟨rfl, fun e2 => by simp⟩

/-- Witness for C6: `bcafe1234.jpg` is processed in the `jpg` batch and
routed to `corrupted`, not to the `jpg` bucket. -/
theorem corrupted_routing_witness :
    Outcome.corrupted = Outcome.corrupted ∧
      ∀ e2, Outcome.corrupted ≠ Outcome.bucket e2 :=
  corrupted_routing ["bcafe1234.jpg"] (BatchKind.ext "jpg")
    [("bcafe1234.jpg", Outcome.corrupted)] "bcafe1234.jpg" Outcome.corrupted
    (by decide) (by decide) (by decide)

end DataRecovery
